import Mathlib

/-!
Shallow embedding of the weekend-warrior git-history-to-tutorial pipeline.

Strings are modelled as lists of characters (`Str`), so that the JavaScript
string operations used by the source (`split`, `join`, `trim`, regular
expression scans) can be given exact executable semantics.

Embedded source files:
* the sync script (`scripts/sync-content` variant, `src/unnamed/part_003`):
  commit enumeration via `git log --format="%h %s"`, step assembly,
  per-step file writes, project metadata resolution, manifest write;
* `src/utils/steps.ts`: the combined-STEPS.md ("legacy") strategy using
  `git log --oneline --reverse --no-abbrev-commit`;
* `src/utils/project.ts` (git accessors `getFileContent`, `getChangedFiles`,
  `getCommitFiles`) and the diff-view decision of the Workspace component.
-/

namespace WeekendWarrior

/-- Strings as character lists (contents, paths, hashes). -/
abbrev Str := List Char

/-- Line terminators recognised by JavaScript regex `.`, `$` and multiline `^`
(` `/` ` omitted: they never occur in the inputs modelled here). -/
def isTermChar (c : Char) : Bool := c = '\n' || c = '\r'

/-- Whitespace recognised by JavaScript regex `\s` (ASCII part). -/
def isSpaceChar (c : Char) : Bool :=
  c = ' ' || c = '\t' || c = '\n' || c = '\r' ||
  c = Char.ofNat 11 || c = Char.ofNat 12

/-- JavaScript `String.prototype.split` with a one-character separator:
no collapsing, a trailing separator yields a trailing empty field,
`"".split(sep) = [""]`. -/
def splitChar (sep : Char) : Str → List Str
  | [] => [[]]
  | c :: rest =>
    match splitChar sep rest with
    | [] => [[]]
    | p :: ps => if c = sep then [] :: p :: ps else (c :: p) :: ps

/-- JavaScript `Array.prototype.join` with a one-character separator. -/
def joinChar (sep : Char) : List Str → Str
  | [] => []
  | [p] => p
  | p :: q :: ps => p ++ sep :: joinChar sep (q :: ps)

/-- JavaScript `String.prototype.trim` (left part). -/
def trimLeft (s : Str) : Str := s.dropWhile isSpaceChar

/-- JavaScript `String.prototype.trim` (right part). -/
def trimRight (s : Str) : Str := ((s.reverse).dropWhile isSpaceChar).reverse

/-- JavaScript `String.prototype.trim`. -/
def trimStr (s : Str) : Str := trimRight (trimLeft s)

/-! ### The title regex `/^#\s+(.+)$/m`

`stepContent.match(/^#\s+(.+)$/m)` in the sync script.  JavaScript scans
positions left to right; multiline `^` matches at the string start and right
after every line terminator; `\s+` is greedy with backtracking and may cross
line boundaries; `.` excludes line terminators; multiline `$` matches at the
end of the string or before a terminator. -/

/-- Pattern `(.+)$`: the greedy dot-run up to the line end; fails on an empty run.
After a maximal run `$` always holds, so no backtracking is needed. -/
def dotPlusEnd (l : Str) : Option Str :=
  let seg := l.takeWhile (fun c => !isTermChar c)
  if seg = [] then none else some seg

/-- Pattern `\s*(.+)$` with the greedy (longest-first, backtracking) `\s*`. -/
def wsStarDot : Str → Option Str
  | [] => none
  | c :: rest =>
    if isSpaceChar c then
      match wsStarDot rest with
      | some r => some r
      | none => dotPlusEnd (c :: rest)
    else dotPlusEnd (c :: rest)

/-- Pattern `\s+(.+)$`: one mandatory whitespace character, then `\s*(.+)$`. -/
def wsPlusDot : Str → Option Str
  | [] => none
  | c :: rest => if isSpaceChar c then wsStarDot rest else none

/-- Pattern `#\s+(.+)$` attempted at one position. -/
def h1At : Str → Option Str
  | [] => none
  | c :: rest => if c = '#' then wsPlusDot rest else none

/-- The multiline scan: try `#\s+(.+)$` at every line-start position, left to
right (`atStart` says whether the current position follows a terminator or is
the string start). -/
def firstH1Aux : Str → Bool → Option Str
  | [], _ => none
  | c :: rest, atStart =>
    if atStart then
      match h1At (c :: rest) with
      | some t => some t
      | none => firstH1Aux rest (isTermChar c)
    else firstH1Aux rest (isTermChar c)

/-- First match of `/^#\s+(.+)$/m`: the extracted title, if any. -/
def firstH1 (l : Str) : Option Str := firstH1Aux l true

/-! ### The README H1 strip `/^#\s+.+\n+/` (no `m` flag, anchored at the
string start; on a match the matched prefix is removed). -/

/-- Pattern `\n+` then end of pattern: greedy, no backtracking needed; returns the
remainder of the string after the match. -/
def nlPlus : Str → Option Str
  | '\n' :: rest => some (rest.dropWhile (fun c => c = '\n'))
  | _ => none

/-- Pattern `.+\n+`: the greedy dot-run (only its maximal extent can be followed by a
terminator), then `\n+`; returns the remainder after the match. -/
def dotPlusNl (l : Str) : Option Str :=
  let seg := l.takeWhile (fun c => !isTermChar c)
  if seg = [] then none else nlPlus (l.dropWhile (fun c => !isTermChar c))

/-- Pattern `\s*.+\n+` with the greedy backtracking `\s*`; remainder after match. -/
def wsStarDotNl : Str → Option Str
  | [] => none
  | c :: rest =>
    if isSpaceChar c then
      match wsStarDotNl rest with
      | some r => some r
      | none => dotPlusNl (c :: rest)
    else dotPlusNl (c :: rest)

/-- Pattern `^#\s+.+\n+` at the string start; remainder after the match (`\s+` is one
mandatory whitespace character followed by `\s*`). -/
def h1StripMatch : Str → Option Str
  | '#' :: c :: rest =>
    if isSpaceChar c then wsStarDotNl rest else none
  | _ => none

/-- The strip `readmeBody.replace(/^#\s+.+\n+/, '')`. -/
def stripLeadingH1 (l : Str) : Str :=
  match h1StripMatch l with
  | some rest => rest
  | none => l

/-! ### `fileContent.split(/^# /m)` (steps.ts, combined-STEPS.md strategy)

The separator `^# ` matches a literal `"# "` at the string start or right
after a line terminator; `split` removes each separator occurrence. -/

/-- Scan splitting on line-start `"# "` occurrences; the head of the result is
the part being accumulated at the current position. -/
def splitH1Aux : Bool → Str → List Str
  | _, [] => [[]]
  | true, '#' :: ' ' :: rest => [] :: splitH1Aux false rest
  | _, c :: rest =>
    match splitH1Aux (isTermChar c) rest with
    | [] => [[]]
    | p :: ps => (c :: p) :: ps

/-- The split `fileContent.split(/^# /m)`. -/
def splitH1 (l : Str) : List Str := splitH1Aux true l

/-! ### Commits and git log parsing

The sync script enumerates commits with
`git log --oneline --reverse --format="%h %s"` — `%h` is the *abbreviated*
hash.  `steps.ts` uses `git log --oneline --reverse --no-abbrev-commit`,
whose lines carry the *full* hash.  A commit of the source repository
therefore carries both forms; `shortHash` is what `%h` prints (git chooses a
unique prefix of the full hash). -/

structure GitCommit where
  fullHash : Str
  shortHash : Str
  subject : Str
deriving DecidableEq

/-- Output of `git log --reverse --format="%h %s"`: one line per commit,
oldest first, each terminated by a newline. -/
def gitLogShort (cs : List GitCommit) : Str :=
  (cs.map (fun c => (c.shortHash ++ ' ' :: c.subject) ++ ['\n'])).flatten

/-- Output of `git log --oneline --reverse --no-abbrev-commit`: one line per
commit, oldest first, full hash, each terminated by a newline. -/
def gitLogFull (cs : List GitCommit) : Str :=
  (cs.map (fun c => (c.fullHash ++ ' ' :: c.subject) ++ ['\n'])).flatten

/-- A commit as recovered from one log line:
`const [hash, ...msgParts] = line.split(' ')` and `msgParts.join(' ')`. -/
structure ParsedCommit where
  hash : Str
  message : Str
deriving DecidableEq

def parseLogLine (line : Str) : ParsedCommit :=
  match splitChar ' ' line with
  | [] => { hash := [], message := [] }
  | h :: rest => { hash := h, message := joinChar ' ' rest }

/-- Sync script: `logOutput.split('\n').filter(Boolean).map(...)`. -/
def parseLogSync (out : Str) : List ParsedCommit :=
  ((splitChar '\n' out).filter (fun l => l ≠ [])).map parseLogLine

/-- steps.ts: `output.trim().split('\n').map(...)`. -/
def parseLogLegacy (out : Str) : List ParsedCommit :=
  (splitChar '\n' (trimStr out)).map parseLogLine

/-! ### Project metadata helpers (sync script, steps 4–7) -/

/-- JavaScript regex `\w`. -/
def isWordChar (c : Char) : Bool := c.isAlphanum || c = '_'

def titleCaseAux : Bool → Str → Str
  | _, [] => []
  | prevWord, c :: rest =>
    (if !prevWord && isWordChar c then c.toUpper else c) ::
      titleCaseAux (isWordChar c) rest

/-- The replace `.replace(/\b\w/g, c => c.toUpperCase())`: uppercase every word character
that starts a word (preceded by a non-word character or the string start). -/
def titleCase (s : Str) : Str := titleCaseAux false s

/-- Value `repoName` with every dash replaced by a space (`replace`, global `-`
regex), then `titleCase`. -/
def defaultTitle (repoName : Str) : Str :=
  titleCase (repoName.map (fun c => if c = '-' then ' ' else c))

/-- The chain `repoName.split('-').map(word => word.charAt(0).toUpperCase()).join('')`
(`charAt(0)` of an empty segment is the empty string). -/
def initialsOf (repoName : Str) : Str :=
  ((splitChar '-' repoName).map (fun w =>
    match w with
    | [] => ([] : Str)
    | c :: _ => [c.toUpper])).flatten

/-- The match `urlMatch = repoUrl.match(/\/([^\/]+?)(\.git)?$/)`: the segment after the
last `/`, with a `.git` suffix dropped when the remaining capture would still
be non-empty; no match when the url has no `/` or ends in `/`. -/
def urlRepoName (url : Str) : Option Str :=
  let segs := splitChar '/' url
  if segs.length ≤ 1 then none
  else
    let seg := segs.getLastD []
    if seg = [] then none
    else if 4 < seg.length ∧ (".git".data).isSuffixOf seg then
      some (seg.take (seg.length - 4))
    else some seg

/-! ### README frontmatter
`rawReadme.match(/^\s*---\s*\n([\s\S]*?)\n\s*---\s*\n?([\s\S]*)$/)`,
implemented with the engine's backtracking order: the greedy `\s*\n` of the
opening delimiter tries the latest contained newline first; the lazy body
grows until the closing `\n\s*---` is found. -/

/-- Candidate remainders after `\s*\n` consumed from the front of
`ws ++ t` (`ws` all whitespace, maximal): one per `'\n'` inside `ws`,
longest-consumed-prefix first. -/
def newlineSplits (t : Str) : Str → List Str
  | [] => []
  | c :: rest =>
    (newlineSplits t rest) ++ (if c = '\n' then [rest ++ t] else [])

/-- Lazy search of `([\s\S]*?)\n\s*---`: the first position whose newline is
followed (after whitespace) by `---`; returns (body, remainder after the
closing dashes). -/
def findClosing : Str → Option (Str × Str)
  | [] => none
  | c :: rest =>
    (if c = '\n' then
      match rest.dropWhile isSpaceChar with
      | '-' :: '-' :: '-' :: after => some (([] : Str), after)
      | _ => none
    else none).orElse (fun _ =>
      (findClosing rest).map (fun p => (c :: p.1, p.2)))

def tryHeaders : List Str → Option (Str × Str)
  | [] => none
  | b :: bs =>
    match findClosing b with
    | some (body, after) => some (body, after.dropWhile isSpaceChar)
    | none => tryHeaders bs

/-- The frontmatter match: `some (group1, group2)` where `group1` is the
frontmatter block and `group2` the body after the closing delimiter (with the
trailing `\s*\n?` of the pattern consumed). -/
def frontmatterSplit (raw : Str) : Option (Str × Str) :=
  match raw.dropWhile isSpaceChar with
  | '-' :: '-' :: '-' :: rest =>
    tryHeaders (newlineSplits (rest.dropWhile isSpaceChar)
      (rest.takeWhile isSpaceChar))
  | _ => none

structure ProjectConfig where
  title : Option Str := none
  description : Option Str := none
  docNumber : Option Str := none
deriving DecidableEq

/-- One frontmatter line against `/^(\w+):\s*(.+?)\s*$/`. -/
def parseFieldLine (line : Str) : Option (Str × Str) :=
  let key := line.takeWhile isWordChar
  let rest := line.dropWhile isWordChar
  match key, rest with
  | [], _ => none
  | _, ':' :: after =>
    let v := trimStr after
    if v = [] then none
    else if v.all (fun c => !isTermChar c) then some (key, v) else none
  | _, _ => none

/-- The cleanup `value.replace(/^["']|["']$/g, '')`. -/
def stripQuotes (v : Str) : Str :=
  let isQuote := fun c => c = '"' || c = Char.ofNat 39
  let v₁ := match v with
    | c :: rest => if isQuote c then rest else v
    | [] => v
  match v₁.getLast? with
  | some c => if isQuote c then v₁.dropLast else v₁
  | none => v₁

def parseFrontmatterFields (fm : Str) : ProjectConfig :=
  (splitChar '\n' fm).foldl (fun cfg line =>
    match parseFieldLine line with
    | none => cfg
    | some (k, v) =>
      let cv := stripQuotes v
      let cfg := if k = "title".data then { cfg with title := some cv } else cfg
      let cfg := if k = "description".data then
        { cfg with description := some cv } else cfg
      if k = "docNumber".data then { cfg with docNumber := some cv } else cfg)
    {}

/-- README processing (sync script step 1): parse frontmatter, take the body
(trimmed when frontmatter was present), strip the leading H1. -/
def readmeProcess (raw : Str) : ProjectConfig × Str :=
  match frontmatterSplit raw with
  | some (fm, rest) => (parseFrontmatterFields fm, stripLeadingH1 (trimStr rest))
  | none => ({}, stripLeadingH1 raw)

/-! ### The sync script pipeline (`src/unnamed/part_003`) -/

/-- The step objects collected into the manifest. -/
structure StepRec where
  id : Str
  title : Str
  commit : Str
  slug : Str
  commitMessage : Str
  hasOutput : Bool
deriving DecidableEq

/-- The environment the sync script runs against: the source repository and
the outcome of each external command.  `commits` is the full history, oldest
first (the script passes `--reverse`); `gitShow h p` models
`git show h:p` (`none` = non-zero exit, e.g. no such path at that commit). -/
structure SyncEnv where
  validRepo : Bool
  commits : List GitCommit
  gitShow : Str → Str → Option Str
  readme : Option Str
  remoteUrl : Option Str
  dateCmd1 : Option Str
  dateCmd2 : Option Str
  today : Str
  dirName : Str
  repoPath : Str

/-- Command `git log --oneline --reverse --format="%h %s"` either prints the short
log or exits non-zero (location not a repository, or zero commits). -/
def gitLogResult (env : SyncEnv) : Option Str :=
  if env.validRepo ∧ env.commits ≠ [] then some (gitLogShort env.commits)
  else none

def natStr (n : Nat) : Str := (Nat.repr n).data

/-- The escape `title.replace(/"/g, '\\"')`. -/
def escapeQuotes (s : Str) : Str :=
  s.flatMap (fun c => if c = '"' then ['\\', '"'] else [c])

/-- The step markdown file written for one commit: frontmatter with the
escaped title, commit hash, slug, then the narrative. -/
def mkStepFileBody (title hash id stepContent : Str) : Str :=
  "---\ntitle: \"".data ++ escapeQuotes title ++
  "\"\ncommit: \"".data ++ hash ++
  "\"\nslug: \"".data ++ id ++
  "\"\n---\n\n".data ++ stepContent ++ ['\n']

/-- Everything the per-commit loop body produces for one commit. -/
structure StepBuild where
  record : StepRec
  narrative : Str
  outputContent : Str
  stepFileBody : Str

/-- The body of `commits.map((commit, index) => ...)` in the sync script. -/
def syncStepBuild (env : SyncEnv) (idx : Nat) (pc : ParsedCommit) : StepBuild :=
  let id := natStr idx
  let stepTry := env.gitShow pc.hash ("STEP.md".data)
  let stepContent := match stepTry with
    | some c => c
    | none => "# ".data ++ pc.message ++
        "\n\n*No STEP.md found for this commit.*".data
  let title := match stepTry with
    | some c => (firstH1 c).getD pc.message
    | none => pc.message
  let outputContent := (env.gitShow pc.hash ("OUTPUT.md".data)).getD []
  { record := { id := id, title := title, commit := pc.hash, slug := id,
                commitMessage := pc.message,
                hasOutput := !outputContent.isEmpty }
    narrative := stepContent
    outputContent := outputContent
    stepFileBody := mkStepFileBody title pc.hash id stepContent }

/-- The manifest written to `src/data/project.json`. -/
structure Manifest where
  title : Str
  description : Str
  repoName : Str
  repoPath : Str
  repoUrl : Str
  startDate : Str
  lastDate : Str
  docNumber : Str
  steps : List StepRec
deriving DecidableEq

/-- Filesystem effects of the sync script, in program order. -/
inductive WriteEvent where
  | clearSteps
  | writeDoc (name : Str) (content : Str)
  | writeStep (name : Str) (content : Str)
  | writeOutput (name : Str) (content : Str)
  | writeManifest (m : Manifest)
deriving DecidableEq

/-- Writes performed inside the loop body for one commit: the step file
always, the output file only when `outputContent` is truthy. -/
def stepEvents (b : StepBuild) : List WriteEvent :=
  WriteEvent.writeStep (b.record.id ++ ".md".data) b.stepFileBody ::
  (if b.outputContent.isEmpty then []
   else [WriteEvent.writeOutput (b.record.id ++ ".output.txt".data)
           b.outputContent])

/-- Field `repoName`: the directory basename, replaced by the captured segment of
the remote origin url when that command succeeds and the regex matches. -/
def resolvedRepoName (env : SyncEnv) : Str :=
  match env.remoteUrl with
  | none => env.dirName
  | some url =>
    match urlRepoName url with
    | some n => n
    | none => env.dirName

/-- Fields `startDate`/`lastDate` (sync script step 5): today's date unless the
corresponding `git log --format="%ai"` read succeeded, in which case the
first space-separated field of the trimmed output.  The two reads share one
`try` block, so a failing first read also leaves `lastDate` at its default. -/
def resolvedDates (env : SyncEnv) : Str × Str :=
  match env.dateCmd1, env.dateCmd2 with
  | some d1, some d2 =>
    ((splitChar ' ' (trimStr d1)).headI, (splitChar ' ' (trimStr d2)).headI)
  | some d1, none => ((splitChar ' ' (trimStr d1)).headI, env.today)
  | none, _ => (env.today, env.today)

/-- The README-derived project configuration (empty when README.md is
absent or has no frontmatter match). -/
def syncConfig (env : SyncEnv) : ProjectConfig :=
  match env.readme with
  | none => {}
  | some raw => (readmeProcess raw).1

/-- JavaScript `a || b` for an optional string: the default is used when the
value is absent *or* the empty string (falsy). -/
def jsOr (v : Option Str) (d : Str) : Str :=
  match v with
  | none => d
  | some t => if t.isEmpty then d else t

/-- Assembly of `projectData` (sync script step 8). -/
def syncManifest (env : SyncEnv) (steps : List StepRec) : Manifest :=
  let cfg := syncConfig env
  let rName := resolvedRepoName env
  let dates := resolvedDates env
  { title := jsOr cfg.title (defaultTitle rName)
    description := jsOr cfg.description []
    repoName := rName
    repoPath := env.repoPath
    repoUrl := env.remoteUrl.getD []
    startDate := dates.1
    lastDate := dates.2
    docNumber := jsOr cfg.docNumber
      (initialsOf rName ++ '-' :: (splitChar '-' dates.1).headI)
    steps := steps }

/-- README step of the pipeline: when README.md exists, the body (without
frontmatter and leading H1) is written to `docs/readme.md`. -/
def readmeEvents (env : SyncEnv) : List WriteEvent :=
  match env.readme with
  | none => []
  | some raw => [WriteEvent.writeDoc ("readme.md".data) (readmeProcess raw).2]

/-- The whole sync script: clear and recreate the steps directory, process the
README, read the git log (an unhandled `execSync` failure aborts the script
there: outcome `none`, manifest never written), then build every step,
write the per-step files and finally the manifest. -/
def syncRun (env : SyncEnv) : List WriteEvent × Option Manifest :=
  let ev := WriteEvent.clearSteps :: readmeEvents env
  match gitLogResult env with
  | none => (ev, none)
  | some out =>
    let builds := (parseLogSync out).enum.map
      (fun p => syncStepBuild env p.1 p.2)
    let manifest := syncManifest env (builds.map StepBuild.record)
    (ev ++ (builds.map stepEvents).flatten ++
       [WriteEvent.writeManifest manifest],
     some manifest)

/-- The step records of a run (the manifest's step index; empty when the
script aborted). -/
def syncSteps (env : SyncEnv) : List StepRec :=
  match (syncRun env).2 with
  | some m => m.steps
  | none => []

/-! ### The combined-STEPS.md strategy (`src/utils/steps.ts`) -/

/-- The `Step` interface of steps.ts. -/
structure LegacyStep where
  id : Str
  slug : Str
  title : Str
  commit : Str
  commitMessage : Str
  content : Str
deriving DecidableEq

/-- Environment of `getSteps()`: the repository history and the STEPS.md
file at the hardcoded repository path (`none` = `readFileSync` throws). -/
structure LegacyEnv where
  validRepo : Bool
  commits : List GitCommit
  stepsMd : Option Str

structure StepSection where
  title : Str
  content : Str
deriving DecidableEq

/-- One section of STEPS.md: `title` is the part before its first newline
and `content` the rest, both trimmed.  `indexOf('\n') = -1` makes
`substring(0, -1)` empty and `substring(-1)` the whole part. -/
def mkSection (part : Str) : StepSection :=
  let pre := part.takeWhile (fun c => c ≠ '\n')
  let post := part.dropWhile (fun c => c ≠ '\n')
  match post with
  | [] => { title := [], content := trimStr part }
  | _ => { title := trimStr pre, content := trimStr post }

/-- The section list: every part after the preamble (`for i = 1 ...`). -/
def legacySections (file : Str) : List StepSection :=
  ((splitH1 file).tail).map mkSection

/-- Function `getSteps()`: log enumeration (full hashes via `--no-abbrev-commit`),
STEPS.md splitting, and the positional merge over
`Math.min(commits.length, sections.length)` indices.  Either failing
external read yields `[]`. -/
def legacyGetSteps (env : LegacyEnv) : List LegacyStep :=
  if env.validRepo ∧ env.commits ≠ [] then
    match env.stepsMd with
    | none => []
    | some file =>
      let cs := parseLogLegacy (gitLogFull env.commits)
      let secs := legacySections file
      (cs.zip secs).enum.map (fun p =>
        { id := natStr p.1, slug := natStr p.1, title := p.2.2.title,
          commit := p.2.1.hash, commitMessage := p.2.1.message,
          content := p.2.2.content })
  else []

/-! ### The git accessors and diff view (`src/utils/project.ts`) -/

structure FileNode where
  path : Str
  content : Option Str := none
  isBinary : Bool := false
deriving DecidableEq

/-- Environment of the accessors: raw command outcomes.  `catFile c p` is the
byte output of `git show c:p` (`none` = non-zero exit, e.g. missing path);
`decode` is `Buffer.prototype.toString("utf-8")`, a total lossy decoding. -/
structure GitEnv where
  catFile : Str → Str → Option (List Nat)
  nameOnly : Str → Option Str
  lsTree : Str → Option Str
  decode : List Nat → Str

/-- Function `getFileContent`: `null` when the subprocess fails *or* the bytes contain
a null byte; the decoded text otherwise. -/
def getFileContent (env : GitEnv) (commit filePath : Str) : Option Str :=
  match env.catFile commit filePath with
  | none => none
  | some bytes =>
    if bytes.contains 0 then none else some (env.decode bytes)

/-- Function `getChangedFiles`: the non-empty lines of
`git show --format= --name-only`, `[]` on failure. -/
def getChangedFiles (env : GitEnv) (commit : Str) : List Str :=
  match env.nameOnly commit with
  | none => []
  | some out => (splitChar '\n' out).filter (fun l => l ≠ [])

/-- Function `getCommitFiles`: every path listed by `git ls-tree -r --name-only`,
mapped to a text node or an `isBinary` marker node; `[]` on failure. -/
def getCommitFiles (env : GitEnv) (commit : Str) : List FileNode :=
  match env.lsTree commit with
  | none => []
  | some out =>
    ((splitChar '\n' out).filter (fun l => l ≠ [])).map (fun p =>
      match getFileContent env commit p with
      | none => { path := p, isBinary := true }
      | some content => { path := p, content := some content })

/-- Outcome of the Workspace diff generation for a selected file pair. -/
inductive DiffView where
  | fileNotFound
  | binarySentinel
  | textualDiff (oldContent newContent : Str)
deriving DecidableEq

/-- The diff-mode branch of the Workspace component: "File not found" when
neither side exists, the "Binary file diff not supported" sentinel when
either side is binary, otherwise a textual two-file patch of the two
contents (`''` for an absent side). -/
def diffView (file prevFile : Option FileNode) : DiffView :=
  match file, prevFile with
  | none, none => DiffView.fileNotFound
  | _, _ =>
    let oldContent := (prevFile.bind FileNode.content).getD []
    let newContent := (file.bind FileNode.content).getD []
    if (file.map FileNode.isBinary).getD false ||
       (prevFile.map FileNode.isBinary).getD false then
      DiffView.binarySentinel
    else DiffView.textualDiff oldContent newContent

/-! ### Log render/parse lemmas -/

/-- The commit a log line with the short (`%h`) hash parses back to. -/
def toParsed (c : GitCommit) : ParsedCommit :=
  { hash := c.shortHash, message := c.subject }

/-- The commit a log line with the full hash parses back to. -/
def toParsedFull (c : GitCommit) : ParsedCommit :=
  { hash := c.fullHash, message := c.subject }

/-- A well-formed hash rendering: nonempty and free of whitespace. -/
def hashLike (h : Str) : Prop := h ≠ [] ∧ ∀ ch ∈ h, isSpaceChar ch = false

/-- A well-formed subject rendering for the trim-based legacy parser:
newline-free, nonempty and ending in a non-whitespace character. -/
def subjectLike (s : Str) : Prop :=
  '\n' ∉ s ∧ s ≠ [] ∧ isSpaceChar (s.getLastD ' ') = false

instance (h : Str) : Decidable (hashLike h) := by
  unfold hashLike
  infer_instance

instance (s : Str) : Decidable (subjectLike s) := by
  unfold subjectLike
  infer_instance

/-! ### Concrete repositories used by the witnesses -/

def wCommitA : GitCommit :=
  { fullHash := "a1b2c3d4e5f6a7b8c9d0a1b2c3d4e5f6a7b8c9d0".data
    shortHash := "a1b2c3d".data
    subject := "first commit".data }

def wCommitB : GitCommit :=
  { fullHash := "b2c3d4e5f6a7b8c9d0a1b2c3d4e5f6a7b8c9d0a1".data
    shortHash := "b2c3d4e".data
    subject := "add feature".data }

def wStepsFile : Str := "intro\n# One\nalpha\n# Two\nbeta\n# Three\ngamma".data

def wSyncEnv : SyncEnv :=
  { validRepo := true
    commits := [wCommitA, wCommitB]
    gitShow := fun h p =>
      if h = wCommitA.shortHash ∧ p = "STEP.md".data then
        some "# Step One\n\nHello".data
      else if h = wCommitB.shortHash ∧ p = "OUTPUT.md".data then
        some "run output".data
      else none
    readme := some "# Proj\n\nBody text".data
    remoteUrl := none
    dateCmd1 := some "2024-03-01 12:00:00 +0000".data
    dateCmd2 := some "2024-03-02 09:30:00 +0000".data
    today := "2025-01-01".data
    dirName := "weekend-coding-agent".data
    repoPath := "/src/weekend-coding-agent".data }

def wLegacyEnv : LegacyEnv :=
  { validRepo := true
    commits := [wCommitA, wCommitB]
    stepsMd := some wStepsFile }

/-- An environment in which every git subprocess fails. -/
def wFailEnv : GitEnv :=
  { catFile := fun _ _ => none
    nameOnly := fun _ => none
    lsTree := fun _ => none
    decode := fun _ => [] }

/-- A small environment with one binary and one text file. -/
def wBinaryEnv : GitEnv :=
  { catFile := fun _ q =>
      if q = "img.png".data then some [137, 0, 13, 10] else some [104, 105]
    nameOnly := fun _ => some "img.png\ntext.txt".data
    lsTree := fun _ => some "img.png\ntext.txt".data
    decode := fun _ => "hi".data }

/-- An environment with one unreadable path among the listed files. -/
def wMissingEnv : GitEnv :=
  { catFile := fun _ q => if q = "gone.txt".data then none else some [104]
    nameOnly := fun _ => some "a.txt\ngone.txt".data
    lsTree := fun _ => some "a.txt\ngone.txt".data
    decode := fun _ => "h".data }

/-- A valid repository with zero commits and a README present. -/
def wEmptyRepoEnv : SyncEnv :=
  { validRepo := true
    commits := []
    gitShow := fun _ _ => none
    readme := some "hello".data
    remoteUrl := none
    dateCmd1 := none
    dateCmd2 := none
    today := "2025-01-01".data
    dirName := "proj".data
    repoPath := "/proj".data }

/-! ### Title extraction: characterisation of the regex scan -/

/-- No line-start position of `l` (entered with line-start flag `b`) carries
a `'#'` — a sufficient executable condition for the title regex to fail. -/
def noH1Start : Str → Bool → Bool
  | [], _ => true
  | c :: rest, atStart =>
    if atStart ∧ c = '#' then false else noH1Start rest (isTermChar c)

/-- Whether the position right after `a` (entered with flag `b`) is a
line start. -/
def endsAtStart : Str → Bool → Bool
  | [], b => b
  | c :: rest, _ => endsAtStart rest (isTermChar c)

/-- A repository whose single commit has a STEP.md consisting of a bare
`"#"` line followed by `"X"`. -/
def wHashEnv : SyncEnv :=
  { validRepo := true
    commits := [wCommitA]
    gitShow := fun _ p => if p = "STEP.md".data then some "#\nX".data else none
    readme := none
    remoteUrl := none
    dateCmd1 := none
    dateCmd2 := none
    today := "2025-01-01".data
    dirName := "proj".data
    repoPath := "/proj".data }

/-! ### Metadata fallback lemmas -/

/-- A word with its first character uppercased. -/
def capWord : Str → Str
  | [] => []
  | c :: r => c.toUpper :: r

/-- The witness repository with no README (so no frontmatter). -/
def wWordsEnv : SyncEnv := { wSyncEnv with readme := none }

/-- A repository directory name containing an underscore. -/
def wUnderscoreEnv : SyncEnv :=
  { validRepo := true
    commits := [wCommitA]
    gitShow := fun _ _ => none
    readme := none
    remoteUrl := none
    dateCmd1 := some ("2024-06-07 10:00:00 +0200".data)
    dateCmd2 := some ("2024-06-07 10:00:00 +0200".data)
    today := "2025-01-01".data
    dirName := "hello_world".data
    repoPath := "/hello_world".data }

theorem splitChar_ne_nil (sep : Char) (l : Str) : splitChar sep l ≠ [] := by
  cases l with
  | nil => simp [splitChar]
  | cons c rest =>
    simp only [splitChar]
    cases h : splitChar sep rest with
    | nil => simp
    | cons p ps => by_cases hc : c = sep <;> simp [hc]

theorem splitChar_cons_sep (sep : Char) (rest : Str) :
    splitChar sep (sep :: rest) = [] :: splitChar sep rest := by
  simp only [splitChar]
  cases h : splitChar sep rest with
  | nil => exact absurd h (splitChar_ne_nil sep rest)
  | cons p ps => simp

theorem splitChar_cons_ne (sep : Char) (c : Char) (rest : Str) (hc : c ≠ sep) :
    splitChar sep (c :: rest) =
      (c :: (splitChar sep rest).headI) :: (splitChar sep rest).tail := by
  simp only [splitChar]
  cases h : splitChar sep rest with
  | nil => exact absurd h (splitChar_ne_nil sep rest)
  | cons p ps => simp [hc, List.headI]

/-- A separator-free string splits into a single field. -/
theorem splitChar_of_not_mem (sep : Char) (l : Str) (h : sep ∉ l) :
    splitChar sep l = [l] := by
  induction l with
  | nil => rfl
  | cons c rest ih =>
    have hc : c ≠ sep := by rintro rfl; exact h (List.mem_cons_self _ _)
    have hr : sep ∉ rest := fun hm => h (List.mem_cons_of_mem _ hm)
    rw [splitChar_cons_ne sep c rest hc, ih hr]
    simp [List.headI]

/-- Splitting at the first separator occurrence, when the prefix is
separator-free. -/
theorem splitChar_append_sep (sep : Char) (a b : Str) (ha : sep ∉ a) :
    splitChar sep (a ++ sep :: b) = a :: splitChar sep b := by
  induction a with
  | nil => simpa using splitChar_cons_sep sep b
  | cons c a' ih =>
    have hc : c ≠ sep := by rintro rfl; exact ha (List.mem_cons_self _ _)
    have ha' : sep ∉ a' := fun hm => ha (List.mem_cons_of_mem _ hm)
    have := ih ha'
    rw [List.cons_append, splitChar_cons_ne sep c _ hc, this]
    simp [List.headI]

/-- Function `join` is a left inverse of `split`. -/
theorem joinChar_splitChar (sep : Char) (l : Str) :
    joinChar sep (splitChar sep l) = l := by
  induction l with
  | nil => rfl
  | cons c rest ih =>
    by_cases hc : c = sep
    · rw [hc, splitChar_cons_sep]
      cases h : splitChar sep rest with
      | nil => exact absurd h (splitChar_ne_nil sep rest)
      | cons p ps =>
        rw [h] at ih
        simp only [joinChar, List.nil_append]
        rw [← ih]
    · rw [splitChar_cons_ne sep c rest hc]
      cases h : splitChar sep rest with
      | nil => exact absurd h (splitChar_ne_nil sep rest)
      | cons p ps =>
        rw [h] at ih
        cases ps with
        | nil => simpa [joinChar, List.headI] using ih
        | cons q qs => simpa [joinChar, List.headI] using ih

theorem not_mem_of_spaceFree {h : Str} {c : Char}
    (hall : ∀ ch ∈ h, isSpaceChar ch = false) (hc : isSpaceChar c = true) :
    c ∉ h := fun hm => by simp [hall c hm] at hc

theorem parseLogLine_append (h m : Str) (hsp : ' ' ∉ h) :
    parseLogLine (h ++ ' ' :: m) = { hash := h, message := m } := by
  unfold parseLogLine
  rw [splitChar_append_sep ' ' h m hsp]
  simp [joinChar_splitChar]

theorem parseLogSync_gitLogShort (cs : List GitCommit)
    (hwf : ∀ c ∈ cs, hashLike c.shortHash ∧ '\n' ∉ c.subject) :
    parseLogSync (gitLogShort cs) = cs.map toParsed := by
  induction cs with
  | nil => rfl
  | cons c cs ih =>
    obtain ⟨⟨hne, hsf⟩, hnl⟩ := hwf c (List.mem_cons_self _ _)
    have hline : '\n' ∉ c.shortHash ++ ' ' :: c.subject := by
      intro hm
      rcases List.mem_append.1 hm with h1 | h2
      · exact not_mem_of_spaceFree hsf (by decide) h1
      · rcases List.mem_cons.1 h2 with h3 | h4
        · exact absurd h3 (by decide)
        · exact hnl h4
    have hstep : gitLogShort (c :: cs) =
        (c.shortHash ++ ' ' :: c.subject) ++ '\n' :: gitLogShort cs := by
      simp [gitLogShort, List.flatten]
    unfold parseLogSync at ih ⊢
    rw [hstep, splitChar_append_sep '\n' _ _ hline]
    have hnonempty : (c.shortHash ++ ' ' :: c.subject) ≠ [] := by
      simp
    rw [List.filter_cons_of_pos (by simp)]
    rw [List.map_cons, parseLogLine_append _ _
      (not_mem_of_spaceFree hsf (by decide))]
    rw [ih (fun c hc => hwf c (List.mem_cons_of_mem _ hc))]
    rfl

theorem splitChar_joinChar (sep : Char) (ls : List Str) (hne : ls ≠ [])
    (hfree : ∀ l ∈ ls, sep ∉ l) :
    splitChar sep (joinChar sep ls) = ls := by
  induction ls with
  | nil => exact absurd rfl hne
  | cons l ls ih =>
    cases ls with
    | nil =>
      simpa [joinChar] using
        splitChar_of_not_mem sep l (hfree l (List.mem_cons_self _ _))
    | cons l' ls' =>
      have h1 : joinChar sep (l :: l' :: ls') =
          l ++ sep :: joinChar sep (l' :: ls') := rfl
      rw [h1, splitChar_append_sep sep _ _ (hfree l (List.mem_cons_self _ _)),
        ih (by simp) (fun x hx => hfree x (List.mem_cons_of_mem _ hx))]

theorem flatten_newline_lines (ls : List Str) (hne : ls ≠ []) :
    (ls.map (fun l => l ++ ['\n'])).flatten = joinChar '\n' ls ++ ['\n'] := by
  induction ls with
  | nil => exact absurd rfl hne
  | cons l ls ih =>
    cases ls with
    | nil => simp [joinChar]
    | cons l' ls' =>
      have := ih (by simp)
      simp only [List.map_cons, List.flatten_cons] at this ⊢
      rw [this]
      simp [joinChar]

theorem trimLeft_of_head (c : Char) (r : Str) (hc : isSpaceChar c = false) :
    trimLeft (c :: r) = c :: r := by
  simp [trimLeft, List.dropWhile_cons, hc]

theorem trimRight_append_newline (x : Str) (d : Char) (hd : x.getLast? = some d)
    (hds : isSpaceChar d = false) : trimRight (x ++ ['\n']) = x := by
  unfold trimRight
  rw [List.reverse_append]
  have h1 : List.reverse ['\n'] ++ x.reverse = '\n' :: x.reverse := rfl
  rw [h1, List.dropWhile_cons]
  have hsp : isSpaceChar '\n' = true := by decide
  rw [if_pos (by simp [hsp])]
  cases hx : x.reverse with
  | nil =>
    have h2 : x.getLast? = x.reverse.head? := List.getLast?_eq_head?_reverse
    rw [hx] at h2
    simp [h2] at hd
  | cons e er =>
    have : e = d := by
      have h2 : x.getLast? = x.reverse.head? := List.getLast?_eq_head?_reverse
      rw [hd, hx] at h2
      simpa using h2.symm
    subst this
    rw [List.dropWhile_cons, if_neg (by simp [hds])]
    rw [← hx, List.reverse_reverse]

/-- Trimming the newline-terminated log output recovers the joined lines,
when the content starts and ends with a non-whitespace character. -/
theorem trimStr_log (x : Str) (c : Char) (r : Str) (hx : x = c :: r)
    (hc : isSpaceChar c = false) (d : Char) (hd : x.getLast? = some d)
    (hds : isSpaceChar d = false) : trimStr (x ++ ['\n']) = x := by
  unfold trimStr
  rw [hx] at hd ⊢
  have h1 : trimLeft ((c :: r) ++ ['\n']) = (c :: r) ++ ['\n'] := by
    simpa using trimLeft_of_head c (r ++ ['\n']) hc
  rw [h1, trimRight_append_newline _ d hd hds]

theorem joinChar_cons_exists (sep : Char) (l : Str) (ls : List Str) :
    ∃ t, joinChar sep (l :: ls) = l ++ t := by
  cases ls with
  | nil => exact ⟨[], by simp [joinChar]⟩
  | cons l' ls' => exact ⟨sep :: joinChar sep (l' :: ls'), rfl⟩

theorem getLast?_joinChar (sep : Char) (ls : List Str) (hne : ls ≠ [])
    (hall : ∀ l ∈ ls, l ≠ []) :
    (joinChar sep ls).getLast? = (ls.getLastD []).getLast? := by
  induction ls with
  | nil => exact absurd rfl hne
  | cons l ls ih =>
    cases ls with
    | nil => simp [joinChar]
    | cons l' ls' =>
      have h1 : joinChar sep (l :: l' :: ls') =
          l ++ sep :: joinChar sep (l' :: ls') := rfl
      rw [h1, List.getLast?_append_cons]
      have hj := ih (by simp) (fun x hx => hall x (List.mem_cons_of_mem _ hx))
      have hjnn : joinChar sep (l' :: ls') ≠ [] := by
        obtain ⟨t, ht⟩ := joinChar_cons_exists sep l' ls'
        rw [ht]
        have : l' ≠ [] := hall l' (by simp)
        cases l' with
        | nil => exact absurd rfl this
        | cons a as => simp
      cases hjc : joinChar sep (l' :: ls') with
      | nil => exact absurd hjc hjnn
      | cons a as =>
        rw [hjc] at hj
        rw [List.getLast?_cons_cons, hj]
        simp

theorem getLast?_cons_cons' (a b : Char) (l : Str) :
    (a :: b :: l).getLast? = (b :: l).getLast? := by
  simp [List.getLast?]

theorem getLast?_map' (f : GitCommit → Str) (l : List GitCommit) :
    (l.map f).getLast? = l.getLast?.map f := by
  induction l with
  | nil => rfl
  | cons a l ih =>
    cases l with
    | nil => rfl
    | cons b t => simpa [List.getLast?_cons_cons] using ih

theorem mem_of_getLast?' {l : List GitCommit} {a : GitCommit}
    (h : l.getLast? = some a) : a ∈ l := by
  induction l with
  | nil => simp at h
  | cons x t ih =>
    cases t with
    | nil =>
      simp [List.getLast?] at h
      simp [h]
    | cons y t' =>
      rw [List.getLast?_cons_cons] at h
      exact List.mem_cons_of_mem _ (ih h)

theorem parseLogLegacy_gitLogFull (cs : List GitCommit) (hne : cs ≠ [])
    (hwf : ∀ c ∈ cs, hashLike c.fullHash ∧ subjectLike c.subject) :
    parseLogLegacy (gitLogFull cs) = cs.map toParsedFull := by
  set f := fun c : GitCommit => c.fullHash ++ ' ' :: c.subject with hf
  have hlines_ne : cs.map f ≠ [] := by simpa using hne
  have hall_ne : ∀ l ∈ cs.map f, l ≠ [] := by
    intro l hl
    obtain ⟨c, _, rfl⟩ := List.mem_map.1 hl
    simp [hf]
  have hline_free : ∀ l ∈ cs.map f, '\n' ∉ l := by
    intro l hl
    obtain ⟨c, hc, rfl⟩ := List.mem_map.1 hl
    obtain ⟨⟨_, hsf⟩, hnl, _⟩ := hwf c hc
    intro hm
    rcases List.mem_append.1 hm with h1 | h2
    · exact not_mem_of_spaceFree hsf (by decide) h1
    · rcases List.mem_cons.1 h2 with h3 | h4
      · exact absurd h3 (by decide)
      · exact hnl h4
  have hflat : gitLogFull cs = joinChar '\n' (cs.map f) ++ ['\n'] := by
    unfold gitLogFull
    rw [← flatten_newline_lines _ hlines_ne, List.map_map]
    congr 1
  -- the joined log text starts with a non-whitespace character
  obtain ⟨c₀, cs', rfl⟩ : ∃ c₀ cs', cs = c₀ :: cs' := by
    cases cs with
    | nil => exact absurd rfl hne
    | cons a b => exact ⟨a, b, rfl⟩
  obtain ⟨⟨h0ne, h0sf⟩, _⟩ := hwf c₀ (List.mem_cons_self _ _)
  obtain ⟨hh, hrest, hfh⟩ : ∃ hh hrest, c₀.fullHash = hh :: hrest := by
    cases hx : c₀.fullHash with
    | nil => exact absurd hx h0ne
    | cons a b => exact ⟨a, b, rfl⟩
  obtain ⟨t, ht⟩ := joinChar_cons_exists '\n' (f c₀) (cs'.map f)
  have hhead : joinChar '\n' ((c₀ :: cs').map f) =
      hh :: (hrest ++ ' ' :: c₀.subject ++ t) := by
    rw [List.map_cons, ht]
    simp only [hf]
    rw [hfh]
    simp [List.append_assoc]
  -- the joined log text ends with a non-whitespace character
  obtain ⟨cl, hcl⟩ : ∃ cl, (c₀ :: cs').getLast? = some cl := by
    cases hx : (c₀ :: cs').getLast? with
    | none => simp [List.getLast?_eq_none_iff] at hx
    | some a => exact ⟨a, rfl⟩
  obtain ⟨_, _, hsubj_ne, hsd⟩ := hwf cl (mem_of_getLast?' hcl)
  obtain ⟨s₀, srest, hsubj⟩ : ∃ s₀ srest, cl.subject = s₀ :: srest := by
    cases hx : cl.subject with
    | nil => exact absurd hx hsubj_ne
    | cons a b => exact ⟨a, b, rfl⟩
  obtain ⟨d, hd⟩ : ∃ d, cl.subject.getLast? = some d := by
    rw [hsubj]
    exact ⟨(s₀ :: srest).getLast (by simp), List.getLast?_eq_getLast _ _⟩
  have hds : isSpaceChar d = false := by
    rw [List.getLastD_eq_getLast?, hd] at hsd
    simpa using hsd
  have hlast : (joinChar '\n' ((c₀ :: cs').map f)).getLast? = some d := by
    rw [getLast?_joinChar '\n' _ hlines_ne hall_ne]
    have h1 : ((c₀ :: cs').map f).getLastD [] = f cl := by
      have h2 := getLast?_map' f (c₀ :: cs')
      rw [hcl] at h2
      rw [List.getLastD_eq_getLast?, h2]
      rfl
    rw [h1]
    simp only [hf]
    rw [List.getLast?_append_cons, hsubj, getLast?_cons_cons', ← hsubj]
    exact hd
  have htrim : trimStr (joinChar '\n' ((c₀ :: cs').map f) ++ ['\n']) =
      joinChar '\n' ((c₀ :: cs').map f) :=
    trimStr_log _ hh _ hhead
      (h0sf hh (by rw [hfh]; exact List.mem_cons_self _ _)) d hlast hds
  unfold parseLogLegacy
  rw [hflat, htrim, splitChar_joinChar '\n' _ hlines_ne hline_free,
    List.map_map]
  refine List.map_congr_left (fun c hc => ?_)
  obtain ⟨⟨_, hsf⟩, _⟩ := hwf c hc
  have : parseLogLine (f c) = { hash := c.fullHash, message := c.subject } :=
    parseLogLine_append _ _ (not_mem_of_spaceFree hsf (by decide))
  simpa [hf, toParsedFull] using this

/-! ### Shape of the produced step lists -/

theorem gitLogResult_some (env : SyncEnv) (hv : env.validRepo = true)
    (hne : env.commits ≠ []) :
    gitLogResult env = some (gitLogShort env.commits) := by
  unfold gitLogResult
  rw [if_pos ⟨hv, hne⟩]

theorem syncRun_snd (env : SyncEnv) (hv : env.validRepo = true)
    (hne : env.commits ≠ [])
    (hwf : ∀ c ∈ env.commits, hashLike c.shortHash ∧ '\n' ∉ c.subject) :
    (syncRun env).2 = some (syncManifest env
      (((env.commits.map toParsed).enum).map
        (fun p => (syncStepBuild env p.1 p.2).record))) := by
  unfold syncRun
  simp only [gitLogResult_some env hv hne, parseLogSync_gitLogShort _ hwf,
    List.map_map]
  rfl

theorem syncSteps_eq (env : SyncEnv) (hv : env.validRepo = true)
    (hne : env.commits ≠ [])
    (hwf : ∀ c ∈ env.commits, hashLike c.shortHash ∧ '\n' ∉ c.subject) :
    syncSteps env = ((env.commits.map toParsed).enum).map
      (fun p => (syncStepBuild env p.1 p.2).record) := by
  unfold syncSteps
  rw [syncRun_snd env hv hne hwf]
  rfl

theorem legacyGetSteps_eq (lenv : LegacyEnv) (hlv : lenv.validRepo = true)
    (hlne : lenv.commits ≠ [])
    (hlwf : ∀ c ∈ lenv.commits, hashLike c.fullHash ∧ subjectLike c.subject)
    (file : Str) (hfile : lenv.stepsMd = some file) :
    legacyGetSteps lenv = (((lenv.commits.map toParsedFull).zip
      (legacySections file)).enum).map (fun p =>
        { id := natStr p.1, slug := natStr p.1, title := p.2.2.title,
          commit := p.2.1.hash, commitMessage := p.2.1.message,
          content := p.2.2.content }) := by
  unfold legacyGetSteps
  rw [if_pos ⟨hlv, hlne⟩]
  simp only [hfile, parseLogLegacy_gitLogFull _ hlne hlwf]

theorem syncSteps_at (env : SyncEnv) (hv : env.validRepo = true)
    (hne : env.commits ≠ [])
    (hwf : ∀ c ∈ env.commits, hashLike c.shortHash ∧ '\n' ∉ c.subject)
    (i : Nat) (hi : i < env.commits.length) :
    ∃ s c, (syncSteps env)[i]? = some s ∧ env.commits[i]? = some c ∧
      s = (syncStepBuild env i (toParsed c)).record := by
  rw [syncSteps_eq env hv hne hwf]
  cases hc : env.commits[i]? with
  | none =>
    rw [List.getElem?_eq_none_iff] at hc
    omega
  | some c =>
    refine ⟨(syncStepBuild env i (toParsed c)).record, c, ?_, rfl, rfl⟩
    simp [List.getElem?_map, List.getElem?_enum, hc]

theorem legacySteps_at (lenv : LegacyEnv) (hlv : lenv.validRepo = true)
    (hlne : lenv.commits ≠ [])
    (hlwf : ∀ c ∈ lenv.commits, hashLike c.fullHash ∧ subjectLike c.subject)
    (file : Str) (hfile : lenv.stepsMd = some file)
    (i : Nat) (hi : i < (legacyGetSteps lenv).length) :
    ∃ s c sec, (legacyGetSteps lenv)[i]? = some s ∧
      lenv.commits[i]? = some c ∧ (legacySections file)[i]? = some sec ∧
      s = { id := natStr i, slug := natStr i, title := sec.title,
            commit := c.fullHash, commitMessage := c.subject,
            content := sec.content } := by
  rw [legacyGetSteps_eq lenv hlv hlne hlwf file hfile] at hi ⊢
  simp only [List.length_map, List.enum_length, List.length_zip] at hi
  cases hc : lenv.commits[i]? with
  | none =>
    rw [List.getElem?_eq_none_iff] at hc
    omega
  | some c =>
    cases hsec : (legacySections file)[i]? with
    | none =>
      rw [List.getElem?_eq_none_iff] at hsec
      omega
    | some sec =>
      refine ⟨{ id := natStr i, slug := natStr i, title := sec.title,
                commit := (toParsedFull c).hash,
                commitMessage := (toParsedFull c).message,
                content := sec.content },
              c, sec, ?_, rfl, rfl, rfl⟩
      have hz : ((lenv.commits.map toParsedFull).zip
          (legacySections file))[i]? = some (toParsedFull c, sec) := by
        rw [List.getElem?_zip_eq_some]
        exact ⟨by simp [List.getElem?_map, hc], hsec⟩
      simp [List.getElem?_map, List.getElem?_enum, hz]

/-- C1: for every repository with N commits, the per-commit STEP.md strategy
produces exactly N steps and the combined-STEPS.md strategy exactly
min(N, number of H1 sections), in oldest-first commit order; step i has id
and slug equal to the decimal string of i and carries the hash of the i-th
commit (the `%h` hash for the sync script, the full hash for steps.ts).
Hypotheses: the repository is readable with at least one commit, hashes
render without whitespace and subjects without embedded newlines (and, for
the trim-based legacy parser, subjects end in a non-whitespace character). -/
theorem c1_ordering_invariant
    (env : SyncEnv) (hv : env.validRepo = true) (hne : env.commits ≠ [])
    (hwf : ∀ c ∈ env.commits, hashLike c.shortHash ∧ '\n' ∉ c.subject)
    (lenv : LegacyEnv) (hlv : lenv.validRepo = true) (hlne : lenv.commits ≠ [])
    (hlwf : ∀ c ∈ lenv.commits, hashLike c.fullHash ∧ subjectLike c.subject)
    (file : Str) (hfile : lenv.stepsMd = some file) :
    ((syncSteps env).length = env.commits.length ∧
      ∀ i, i < env.commits.length →
        ∃ s c, (syncSteps env)[i]? = some s ∧ env.commits[i]? = some c ∧
          s.id = natStr i ∧ s.slug = natStr i ∧ s.commit = c.shortHash ∧
          s.commitMessage = c.subject) ∧
    ((legacyGetSteps lenv).length =
        min lenv.commits.length (legacySections file).length ∧
      ∀ i, i < (legacyGetSteps lenv).length →
        ∃ s c, (legacyGetSteps lenv)[i]? = some s ∧
          lenv.commits[i]? = some c ∧
          s.id = natStr i ∧ s.slug = natStr i ∧ s.commit = c.fullHash ∧
          s.commitMessage = c.subject) := by
  refine ⟨⟨?_, ?_⟩, ⟨?_, ?_⟩⟩
  · rw [syncSteps_eq env hv hne hwf]
    simp
  · intro i hi
    obtain ⟨s, c, hs, hc, rfl⟩ := syncSteps_at env hv hne hwf i hi
    exact ⟨_, c, hs, hc, rfl, rfl, rfl, rfl⟩
  · rw [legacyGetSteps_eq lenv hlv hlne hlwf file hfile]
    simp
  · intro i hi
    obtain ⟨s, c, sec, hs, hc, hsec, rfl⟩ :=
      legacySteps_at lenv hlv hlne hlwf file hfile i hi
    exact ⟨_, c, hs, hc, rfl, rfl, rfl, rfl⟩

theorem c1_ordering_invariant_witness :
    ((syncSteps wSyncEnv).length = wSyncEnv.commits.length ∧
      ∀ i, i < wSyncEnv.commits.length →
        ∃ s c, (syncSteps wSyncEnv)[i]? = some s ∧
          wSyncEnv.commits[i]? = some c ∧
          s.id = natStr i ∧ s.slug = natStr i ∧ s.commit = c.shortHash ∧
          s.commitMessage = c.subject) ∧
    ((legacyGetSteps wLegacyEnv).length =
        min wLegacyEnv.commits.length (legacySections wStepsFile).length ∧
      ∀ i, i < (legacyGetSteps wLegacyEnv).length →
        ∃ s c, (legacyGetSteps wLegacyEnv)[i]? = some s ∧
          wLegacyEnv.commits[i]? = some c ∧
          s.id = natStr i ∧ s.slug = natStr i ∧ s.commit = c.fullHash ∧
          s.commitMessage = c.subject) :=
  c1_ordering_invariant wSyncEnv rfl (by decide) (by decide)
    wLegacyEnv rfl (by decide) (by decide) wStepsFile rfl

/-- C2 counterexample: in a repository whose commits have distinct full and
abbreviated (`%h`) hashes, the sync script's steps — and the manifest's step
index — carry the abbreviated hash, not the full-length one. -/
theorem c2_full_hash_counterexample :
    (syncSteps wSyncEnv).map StepRec.commit =
      [wCommitA.shortHash, wCommitB.shortHash] ∧
    ((syncRun wSyncEnv).2.map (fun m => m.steps.map StepRec.commit)) =
      some [wCommitA.shortHash, wCommitB.shortHash] ∧
    wCommitA.shortHash ≠ wCommitA.fullHash ∧
    (syncSteps wSyncEnv).map StepRec.commit ≠
      [wCommitA.fullHash, wCommitB.fullHash] := by decide

/-- C2 (amended): the steps.ts enumerator (`--no-abbrev-commit`) yields the
full hash, but the sync script enumerates with `--format="%h %s"`, so every
Step and manifest entry it produces carries the abbreviated `%h` hash of its
commit. -/
theorem c2_hash_forms
    (env : SyncEnv) (hv : env.validRepo = true) (hne : env.commits ≠ [])
    (hwf : ∀ c ∈ env.commits, hashLike c.shortHash ∧ '\n' ∉ c.subject)
    (lenv : LegacyEnv) (hlv : lenv.validRepo = true) (hlne : lenv.commits ≠ [])
    (hlwf : ∀ c ∈ lenv.commits, hashLike c.fullHash ∧ subjectLike c.subject)
    (file : Str) (hfile : lenv.stepsMd = some file) :
    (∀ i, i < env.commits.length →
      ∃ s c, (syncSteps env)[i]? = some s ∧ env.commits[i]? = some c ∧
        s.commit = c.shortHash) ∧
    (∀ m, (syncRun env).2 = some m → m.steps = syncSteps env) ∧
    (∀ i, i < (legacyGetSteps lenv).length →
      ∃ s c, (legacyGetSteps lenv)[i]? = some s ∧
        lenv.commits[i]? = some c ∧ s.commit = c.fullHash) := by
  refine ⟨?_, ?_, ?_⟩
  · intro i hi
    obtain ⟨s, c, hs, hc, rfl⟩ := syncSteps_at env hv hne hwf i hi
    exact ⟨_, c, hs, hc, rfl⟩
  · intro m hm
    rw [syncRun_snd env hv hne hwf] at hm
    rw [syncSteps_eq env hv hne hwf]
    cases hm
    rfl
  · intro i hi
    obtain ⟨s, c, sec, hs, hc, hsec, rfl⟩ :=
      legacySteps_at lenv hlv hlne hlwf file hfile i hi
    exact ⟨_, c, hs, hc, rfl⟩

theorem c2_hash_forms_witness :
    (∀ i, i < wSyncEnv.commits.length →
      ∃ s c, (syncSteps wSyncEnv)[i]? = some s ∧
        wSyncEnv.commits[i]? = some c ∧ s.commit = c.shortHash) ∧
    (∀ m, (syncRun wSyncEnv).2 = some m → m.steps = syncSteps wSyncEnv) ∧
    (∀ i, i < (legacyGetSteps wLegacyEnv).length →
      ∃ s c, (legacyGetSteps wLegacyEnv)[i]? = some s ∧
        wLegacyEnv.commits[i]? = some c ∧ s.commit = c.fullHash) :=
  c2_hash_forms wSyncEnv rfl (by decide) (by decide)
    wLegacyEnv rfl (by decide) (by decide) wStepsFile rfl

/-- C10: a step's hasOutput flag is true iff reading OUTPUT.md at that
commit succeeded with non-empty content (a missing *or empty* OUTPUT.md
gives false), and the per-step output file is written iff hasOutput. -/
theorem c10_hasOutput_iff (env : SyncEnv) (idx : Nat) (pc : ParsedCommit) :
    ((syncStepBuild env idx pc).record.hasOutput = true ↔
      ∃ o, env.gitShow pc.hash ("OUTPUT.md".data) = some o ∧ o ≠ []) ∧
    ((∃ n content, WriteEvent.writeOutput n content ∈
        stepEvents (syncStepBuild env idx pc)) ↔
      (syncStepBuild env idx pc).record.hasOutput = true) := by
  constructor
  · unfold syncStepBuild
    cases hg : env.gitShow pc.hash ("OUTPUT.md".data) with
    | none => simp [hg]
    | some o => simp [hg, List.isEmpty_iff]
  · unfold stepEvents syncStepBuild
    cases hg : env.gitShow pc.hash ("OUTPUT.md".data) with
    | none => simp [hg]
    | some o =>
      cases ho : o.isEmpty with
      | true =>
        rw [List.isEmpty_iff] at ho
        simp [hg, ho]
      | false =>
        have : o.isEmpty = false := ho
        simp [hg, this]

/-- C9: each git accessor absorbs a failing subprocess: `getFileContent`
returns null, `getChangedFiles` and `getCommitFiles` the empty list. -/
theorem c9_accessors_total (env : GitEnv) (commit filePath : Str) :
    (env.catFile commit filePath = none →
      getFileContent env commit filePath = none) ∧
    (env.nameOnly commit = none → getChangedFiles env commit = []) ∧
    (env.lsTree commit = none → getCommitFiles env commit = []) := by
  refine ⟨fun h => ?_, fun h => ?_, fun h => ?_⟩ <;>
    simp [getFileContent, getChangedFiles, getCommitFiles, h]

theorem c9_accessors_total_witness :
    getFileContent wFailEnv ("c".data) ("f".data) = none ∧
    getChangedFiles wFailEnv ("c".data) = [] ∧
    getCommitFiles wFailEnv ("c".data) = [] :=
  ⟨(c9_accessors_total wFailEnv ("c".data) ("f".data)).1 rfl,
   (c9_accessors_total wFailEnv ("c".data) ("f".data)).2.1 rfl,
   (c9_accessors_total wFailEnv ("c".data) ("f".data)).2.2 rfl⟩

/-- C3: a blob whose bytes contain a null byte is never returned as text —
`getFileContent` yields null, the commit's file node for that path is marked
binary with no content, and the diff view involving it is always the binary
sentinel, never a textual diff. -/
theorem c3_binary_safety (env : GitEnv) (commit p : Str) (bytes : List Nat)
    (hb : env.catFile commit p = some bytes) (h0 : bytes.contains 0 = true) :
    getFileContent env commit p = none ∧
    ∀ node ∈ getCommitFiles env commit, node.path = p →
      node.isBinary = true ∧ node.content = none ∧
      ∀ other, diffView (some node) other = DiffView.binarySentinel ∧
        diffView other (some node) = DiffView.binarySentinel := by
  have hmain : getFileContent env commit p = none := by
    have h0' : 0 ∈ bytes := by
      simpa using h0
    unfold getFileContent
    rw [hb]
    simp [h0']
  refine ⟨hmain, ?_⟩
  intro node hnode hpath
  unfold getCommitFiles at hnode
  cases hls : env.lsTree commit with
  | none => simp [hls] at hnode
  | some out =>
    rw [hls] at hnode
    simp only [List.mem_map] at hnode
    obtain ⟨q, hq, hnq⟩ := hnode
    have hqp : q = p := by
      cases hgf : getFileContent env commit q <;>
        simp [hgf] at hnq <;> rw [← hnq] at hpath <;> exact hpath
    subst hqp
    rw [hmain] at hnq
    have hnode_eq : node = { path := q, isBinary := true } := hnq.symm
    subst hnode_eq
    refine ⟨rfl, rfl, fun other => ⟨?_, ?_⟩⟩
    · cases other <;> simp [diffView]
    · cases other <;> simp [diffView]

theorem c3_binary_safety_witness :
    getFileContent wBinaryEnv ("c".data) ("img.png".data) = none ∧
    ∀ node ∈ getCommitFiles wBinaryEnv ("c".data),
      node.path = ("img.png".data) →
      node.isBinary = true ∧ node.content = none ∧
      ∀ other, diffView (some node) other = DiffView.binarySentinel ∧
        diffView other (some node) = DiffView.binarySentinel :=
  c3_binary_safety wBinaryEnv ("c".data) ("img.png".data) [137, 0, 13, 10]
    (by decide) (by decide)

/-- C7 counterexample: a missing path and a null-byte blob produce the very
same result — `getFileContent` returns null for both — so the interface does
not return three distinguishable results, and not-found is not
distinguishable from the binary marker. -/
theorem c7_not_found_counterexample :
    getFileContent wFailEnv ("c".data) ("gone.txt".data) = none ∧
    getFileContent wBinaryEnv ("c".data) ("img.png".data) = none ∧
    getFileContent wFailEnv ("c".data) ("gone.txt".data) =
      getFileContent wBinaryEnv ("c".data) ("img.png".data) := by decide

/-- C7 (amended): `getFileContent` returns either text or null, where null
covers both a binary blob and a missing path indistinguishably; a missing
path never throws, and enumeration continues — `getCommitFiles` yields a
node for every listed path regardless of per-path read failures. -/
theorem c7_readfile_results (env : GitEnv) (commit p out : Str)
    (hmiss : env.catFile commit p = none)
    (hls : env.lsTree commit = some out) :
    getFileContent env commit p = none ∧
    (getCommitFiles env commit).map FileNode.path =
      (splitChar '\n' out).filter (fun l => l ≠ []) ∧
    (∀ q, q ∈ (splitChar '\n' out).filter (fun l => l ≠ []) →
      ∃ node, node ∈ getCommitFiles env commit ∧ node.path = q) := by
  have h1 : getFileContent env commit p = none := by
    simp [getFileContent, hmiss]
  have h2 : (getCommitFiles env commit).map FileNode.path =
      (splitChar '\n' out).filter (fun l => l ≠ []) := by
    unfold getCommitFiles
    rw [hls]
    rw [List.map_map]
    refine (List.map_congr_left fun q _ => ?_).trans (List.map_id _)
    cases hgf : getFileContent env commit q <;> simp [hgf]
  refine ⟨h1, h2, fun q hq => ?_⟩
  rw [← h2] at hq
  obtain ⟨node, hnode, hpath⟩ := List.mem_map.1 hq
  exact ⟨node, hnode, hpath⟩

theorem c7_readfile_results_witness :
    getFileContent wMissingEnv ("c".data) ("gone.txt".data) = none ∧
    (getCommitFiles wMissingEnv ("c".data)).map FileNode.path =
      (splitChar '\n' ("a.txt\ngone.txt".data)).filter (fun l => l ≠ []) ∧
    (∀ q, q ∈ (splitChar '\n' ("a.txt\ngone.txt".data)).filter
        (fun l => l ≠ []) →
      ∃ node, node ∈ getCommitFiles wMissingEnv ("c".data) ∧ node.path = q) :=
  c7_readfile_results wMissingEnv ("c".data) ("gone.txt".data)
    ("a.txt\ngone.txt".data) (by decide) rfl

/-- C6 counterexample: the second commit of the witness repository has no
STEP.md but a non-empty OUTPUT.md, and its step's hasOutput flag is true,
not false as the claim asserts for commits lacking STEP.md. -/
theorem c6_hasOutput_counterexample :
    wSyncEnv.gitShow wCommitB.shortHash ("STEP.md".data) = none ∧
    ((syncSteps wSyncEnv)[1]?).map StepRec.hasOutput = some true := by decide

/-- C6 (amended): a commit lacking STEP.md still yields a step whose
narrative content is the non-empty synthetic fallback built from the commit
message and whose title is the commit message; its hasOutput flag is
independent of STEP.md — it is false iff OUTPUT.md is also missing or
empty. -/
theorem c6_missing_narrative (env : SyncEnv) (idx : Nat) (pc : ParsedCommit)
    (hstep : env.gitShow pc.hash ("STEP.md".data) = none) :
    (syncStepBuild env idx pc).narrative =
      "# ".data ++ pc.message ++
        "\n\n*No STEP.md found for this commit.*".data ∧
    (syncStepBuild env idx pc).narrative ≠ [] ∧
    (syncStepBuild env idx pc).record.title = pc.message ∧
    ((syncStepBuild env idx pc).record.hasOutput = false ↔
      (env.gitShow pc.hash ("OUTPUT.md".data)).getD [] = []) := by
  unfold syncStepBuild
  refine ⟨by simp [hstep], by simp [hstep], by simp [hstep], ?_⟩
  cases hg : env.gitShow pc.hash ("OUTPUT.md".data) with
  | none => simp [hstep, hg]
  | some o => simp [hstep, hg, List.isEmpty_iff]

theorem c6_missing_narrative_witness :
    (syncStepBuild wSyncEnv 1 (toParsed wCommitB)).narrative =
      "# ".data ++ (toParsed wCommitB).message ++
        "\n\n*No STEP.md found for this commit.*".data ∧
    (syncStepBuild wSyncEnv 1 (toParsed wCommitB)).narrative ≠ [] ∧
    (syncStepBuild wSyncEnv 1 (toParsed wCommitB)).record.title =
      (toParsed wCommitB).message ∧
    ((syncStepBuild wSyncEnv 1 (toParsed wCommitB)).record.hasOutput = false ↔
      (wSyncEnv.gitShow (toParsed wCommitB).hash
        ("OUTPUT.md".data)).getD [] = []) :=
  c6_missing_narrative wSyncEnv 1 (toParsed wCommitB) (by decide)

/-- C4 counterexample: with a zero-commit repository and a README present,
the pipeline does abort at the git-log stage (no manifest), but only after
it has already cleared the steps directory and written the readme doc, so it
does not abort "before writing any output". -/
theorem c4_writes_before_abort_counterexample :
    (syncRun wEmptyRepoEnv).2 = none ∧
    WriteEvent.clearSteps ∈ (syncRun wEmptyRepoEnv).1 ∧
    WriteEvent.writeDoc ("readme.md".data) ("hello".data) ∈
      (syncRun wEmptyRepoEnv).1 := by decide

theorem writeManifest_not_mem_pre (env : SyncEnv) (m : Manifest) :
    WriteEvent.writeManifest m ∉ (WriteEvent.clearSteps :: readmeEvents env) := by
  unfold readmeEvents
  cases env.readme <;> simp

theorem writeManifest_not_mem_stepEvents (b : StepBuild) (m : Manifest) :
    WriteEvent.writeManifest m ∉ stepEvents b := by
  unfold stepEvents
  by_cases h : b.outputContent.isEmpty <;> simp [h]

theorem writeManifest_not_mem_flatten (bs : List StepBuild) (m : Manifest) :
    WriteEvent.writeManifest m ∉ (bs.map stepEvents).flatten := by
  intro hmem
  rw [List.mem_flatten] at hmem
  obtain ⟨l, hl, hml⟩ := hmem
  obtain ⟨b, _, rfl⟩ := List.mem_map.1 hl
  exact writeManifest_not_mem_stepEvents b m hml

/-- C4 (amended): when the source location is not a valid repository or has
zero commits, the git-log `execSync` call fails and the script aborts with
that raw error (there is no dedicated RepositoryAccessError type), before
writing any step file, output file or manifest — so a zero-commit repository
never yields a written manifest, in particular not one with an empty step
list; the abort however happens only after the steps directory was cleared
and the readme doc possibly written.  Conversely a written manifest implies
a valid repository with at least one commit and one step per commit. -/
theorem c4_failure_behaviour (env : SyncEnv)
    (hwf : ∀ c ∈ env.commits, hashLike c.shortHash ∧ '\n' ∉ c.subject) :
    ((env.validRepo = false ∨ env.commits = []) →
      (syncRun env).2 = none ∧
      (∀ m, WriteEvent.writeManifest m ∉ (syncRun env).1) ∧
      (∀ n content, WriteEvent.writeStep n content ∉ (syncRun env).1) ∧
      (∀ n content, WriteEvent.writeOutput n content ∉ (syncRun env).1)) ∧
    (∀ m, WriteEvent.writeManifest m ∈ (syncRun env).1 →
      env.validRepo = true ∧ env.commits ≠ [] ∧
      m.steps.length = env.commits.length) := by
  constructor
  · intro hfail
    have hlog : gitLogResult env = none := by
      unfold gitLogResult
      rw [if_neg]
      rintro ⟨h1, h2⟩
      rcases hfail with h | h
      · rw [h] at h1; exact Bool.false_ne_true h1
      · exact h2 h
    unfold syncRun
    rw [hlog]
    refine ⟨rfl, fun m => writeManifest_not_mem_pre env m,
      fun n content => ?_, fun n content => ?_⟩ <;>
      · unfold readmeEvents
        cases env.readme <;> simp
  · intro m hm
    by_cases hfail : env.validRepo = false ∨ env.commits = []
    · exfalso
      have hlog : gitLogResult env = none := by
        unfold gitLogResult
        rw [if_neg]
        rintro ⟨h1, h2⟩
        rcases hfail with h | h
        · rw [h] at h1; exact Bool.false_ne_true h1
        · exact h2 h
      unfold syncRun at hm
      rw [hlog] at hm
      exact writeManifest_not_mem_pre env m hm
    · push_neg at hfail
      obtain ⟨hv', hne⟩ := hfail
      have hv : env.validRepo = true := by
        cases hx : env.validRepo with
        | false => exact absurd hx hv'
        | true => rfl
      refine ⟨hv, hne, ?_⟩
      unfold syncRun at hm
      rw [gitLogResult_some env hv hne] at hm
      rw [List.mem_append, List.mem_append] at hm
      rcases hm with (hm | hm) | hm
      · exact absurd hm (writeManifest_not_mem_pre env m)
      · exact absurd hm (writeManifest_not_mem_flatten _ m)
      · have hm' : m = syncManifest env
            (((parseLogSync (gitLogShort env.commits)).enum.map
              (fun p => syncStepBuild env p.1 p.2)).map StepBuild.record) := by
          simpa using hm
        rw [hm']
        show (((parseLogSync (gitLogShort env.commits)).enum.map
          (fun p => syncStepBuild env p.1 p.2)).map StepBuild.record).length =
            env.commits.length
        rw [parseLogSync_gitLogShort _ hwf]
        simp

theorem c4_failure_behaviour_witness :
    (syncRun wEmptyRepoEnv).2 = none ∧
    (∀ m, WriteEvent.writeManifest m ∉ (syncRun wEmptyRepoEnv).1) :=
  ⟨((c4_failure_behaviour wEmptyRepoEnv (by decide)).1 (Or.inr rfl)).1,
   ((c4_failure_behaviour wEmptyRepoEnv (by decide)).1 (Or.inr rfl)).2.1⟩

theorem isSpaceChar_of_isTermChar (c : Char) (h : isTermChar c = true) :
    isSpaceChar c = true := by
  unfold isTermChar at h
  unfold isSpaceChar
  rcases Bool.or_eq_true_iff.1 h with h' | h' <;> simp [h']

theorem h1At_cons (c : Char) (rest : Str) :
    h1At (c :: rest) = if c = '#' then wsPlusDot rest else none := rfl

theorem firstH1Aux_cons_false (c : Char) (rest : Str) :
    firstH1Aux (c :: rest) false = firstH1Aux rest (isTermChar c) := rfl

theorem firstH1Aux_cons_true (c : Char) (rest : Str) :
    firstH1Aux (c :: rest) true =
      match h1At (c :: rest) with
      | some t => some t
      | none => firstH1Aux rest (isTermChar c) := rfl

theorem endsAtStart_cons (c : Char) (rest : Str) (b : Bool) :
    endsAtStart (c :: rest) b = endsAtStart rest (isTermChar c) := rfl

theorem firstH1Aux_of_noH1Start (l : Str) (b : Bool)
    (h : noH1Start l b = true) : firstH1Aux l b = none := by
  induction l generalizing b with
  | nil => rfl
  | cons c rest ih =>
    unfold noH1Start at h
    cases b with
    | false =>
      rw [if_neg (by simp)] at h
      rw [firstH1Aux_cons_false]
      exact ih _ h
    | true =>
      by_cases hcne : c = '#'
      · rw [if_pos ⟨rfl, hcne⟩] at h
        exact absurd h (by simp)
      · rw [if_neg (by simp [hcne])] at h
        rw [firstH1Aux_cons_true, h1At_cons, if_neg hcne]
        exact ih _ h

theorem firstH1Aux_append (a : Str) (b : Bool) (l : Str)
    (h : noH1Start a b = true) :
    firstH1Aux (a ++ l) b = firstH1Aux l (endsAtStart a b) := by
  induction a generalizing b with
  | nil => rfl
  | cons c a' ih =>
    unfold noH1Start at h
    rw [List.cons_append, endsAtStart_cons]
    cases b with
    | false =>
      rw [if_neg (by simp)] at h
      rw [firstH1Aux_cons_false]
      exact ih _ h
    | true =>
      by_cases hcne : c = '#'
      · rw [if_pos ⟨rfl, hcne⟩] at h
        exact absurd h (by simp)
      · rw [if_neg (by simp [hcne])] at h
        rw [firstH1Aux_cons_true, h1At_cons, if_neg hcne]
        exact ih _ h

theorem wsPlusDot_cons (c : Char) (rest : Str) :
    wsPlusDot (c :: rest) =
      if isSpaceChar c then wsStarDot rest else none := rfl

theorem wsStarDot_cons (c : Char) (rest : Str) :
    wsStarDot (c :: rest) =
      if isSpaceChar c then
        match wsStarDot rest with
        | some r => some r
        | none => dotPlusEnd (c :: rest)
      else dotPlusEnd (c :: rest) := rfl

theorem h1At_hash_space (t : Str) (c₀ : Char) (trest : Str)
    (ht : t = c₀ :: trest) (hc : isSpaceChar c₀ = false) :
    h1At ('#' :: ' ' :: t) =
      some (t.takeWhile (fun ch => !isTermChar ch)) := by
  subst ht
  rw [h1At_cons, if_pos rfl]
  show wsPlusDot (' ' :: c₀ :: trest) = _
  rw [wsPlusDot_cons, if_pos (by decide)]
  rw [wsStarDot_cons, if_neg (by simp [hc])]
  unfold dotPlusEnd
  have hterm : isTermChar c₀ = false := by
    cases hx : isTermChar c₀ with
    | false => rfl
    | true => exact absurd (isSpaceChar_of_isTermChar c₀ hx) (by simp [hc])
  simp [List.takeWhile_cons, hterm]

theorem syncStepBuild_title_of_some (env : SyncEnv) (idx : Nat)
    (pc : ParsedCommit) (content : Str)
    (hstep : env.gitShow pc.hash ("STEP.md".data) = some content) :
    (syncStepBuild env idx pc).record.title =
      (firstH1 content).getD pc.message := by
  unfold syncStepBuild
  simp [hstep]

/-- C5 (amended): when STEP.md is present, the title falls back to the
commit subject exactly when the multiline regex `^#\s+(.+)$` has no match —
in particular whenever no line of the content starts with `'#'`; and when
the first line-start `'#'` opens a proper H1 `"# text"` whose text begins
with a non-whitespace character on the same line, the title is that text up
to the end of its line.  (The regex's `\s+` may cross a line boundary, so a
bare `"#"` line can instead capture a following line — see the
counterexample.) -/
theorem c5_title_rules (env : SyncEnv) (idx : Nat) (pc : ParsedCommit)
    (content : Str)
    (hstep : env.gitShow pc.hash ("STEP.md".data) = some content) :
    (noH1Start content true = true →
      (syncStepBuild env idx pc).record.title = pc.message) ∧
    (∀ a t c₀ trest, content = a ++ '#' :: ' ' :: t →
      noH1Start a true = true → endsAtStart a true = true →
      t = c₀ :: trest → isSpaceChar c₀ = false →
      (syncStepBuild env idx pc).record.title =
        t.takeWhile (fun ch => !isTermChar ch)) := by
  constructor
  · intro hno
    rw [syncStepBuild_title_of_some env idx pc content hstep]
    unfold firstH1
    rw [firstH1Aux_of_noH1Start content true hno]
    rfl
  · intro a t c₀ trest hcontent hno hends ht hc
    rw [syncStepBuild_title_of_some env idx pc content hstep]
    unfold firstH1
    rw [hcontent, firstH1Aux_append a true _ hno, hends]
    rw [firstH1Aux_cons_true, h1At_hash_space t c₀ trest ht hc]
    rfl

theorem c5_title_rules_witness :
    (syncStepBuild wSyncEnv 0 (toParsed wCommitA)).record.title =
      (("Step One\n\nHello".data : Str).takeWhile
        (fun ch => !isTermChar ch)) :=
  (c5_title_rules wSyncEnv 0 (toParsed wCommitA)
      ("# Step One\n\nHello".data) (by decide)).2
    [] ("Step One\n\nHello".data) 'S' ("tep One\n\nHello".data)
    (by decide) (by decide) (by decide) (by decide) (by decide)

/-- C5 counterexample: the STEP.md content `"#\nX"` has no H1 heading line
(no line starts with `"# "`), so by the claim the title should equal the
commit subject; the produced title is `"X"` — the regex's `\s+` crossed the
newline — which is neither the subject nor the text of any heading line. -/
theorem c5_title_counterexample :
    (∀ line ∈ splitChar '\n' ("#\nX".data),
      (("# ".data).isPrefixOf line) = false) ∧
    ((syncSteps wHashEnv)[0]?).map StepRec.title = some ("X".data) ∧
    ((syncSteps wHashEnv)[0]?).map StepRec.commitMessage =
      some ("first commit".data) ∧
    ("X".data : Str) ≠ "first commit".data := by decide

theorem titleCaseAux_cons (b : Bool) (c : Char) (rest : Str) :
    titleCaseAux b (c :: rest) =
      (if !b && isWordChar c then c.toUpper else c) ::
        titleCaseAux (isWordChar c) rest := rfl

theorem titleCaseAux_word (w : Str)
    (hall : ∀ ch ∈ w, isWordChar ch = true) (s : Str) :
    titleCaseAux true (w ++ s) = w ++ titleCaseAux true s := by
  induction w with
  | nil => rfl
  | cons c w' ih =>
    rw [List.cons_append, titleCaseAux_cons,
      hall c (List.mem_cons_self _ _)]
    simp only [Bool.not_true, Bool.false_and, if_neg Bool.false_ne_true]
    rw [ih (fun ch hch => hall ch (List.mem_cons_of_mem _ hch))]
    rfl

theorem titleCase_words (ws : List Str)
    (hws : ∀ w ∈ ws, w ≠ [] ∧ ∀ ch ∈ w, isWordChar ch = true) :
    titleCase (joinChar ' ' ws) = joinChar ' ' (ws.map capWord) := by
  unfold titleCase
  induction ws with
  | nil => rfl
  | cons w ws' ih =>
    obtain ⟨hne, hall⟩ := hws w (List.mem_cons_self _ _)
    obtain ⟨c, r, rfl⟩ : ∃ c r, w = c :: r := by
      cases hx : w with
      | nil => exact absurd hx hne
      | cons a b => exact ⟨a, b, rfl⟩
    have hc : isWordChar c = true := hall c (List.mem_cons_self _ _)
    have hr : ∀ ch ∈ r, isWordChar ch = true :=
      fun ch hch => hall ch (List.mem_cons_of_mem _ hch)
    have h0 : titleCaseAux true r = r := by
      have h1 := titleCaseAux_word r hr []
      rw [List.append_nil] at h1
      simpa [titleCaseAux] using h1
    cases ws' with
    | nil =>
      show titleCaseAux false (c :: r) = capWord (c :: r)
      rw [titleCaseAux_cons, hc, h0]
      simp [capWord]
    | cons w' ws'' =>
      have hjoin : joinChar ' ' ((c :: r) :: w' :: ws'') =
          (c :: r) ++ ' ' :: joinChar ' ' (w' :: ws'') := rfl
      rw [hjoin, List.cons_append, titleCaseAux_cons, hc,
        titleCaseAux_word r hr (' ' :: joinChar ' ' (w' :: ws'')),
        titleCaseAux_cons]
      have hsp : isWordChar ' ' = false := by decide
      rw [hsp, ih (fun x hx => hws x (List.mem_cons_of_mem _ hx))]
      rfl

theorem map_joinChar (f : Char → Char) (sep : Char) (ls : List Str) :
    (joinChar sep ls).map f = joinChar (f sep) (ls.map (List.map f)) := by
  induction ls with
  | nil => rfl
  | cons p ps ih =>
    cases ps with
    | nil => rfl
    | cons q qs =>
      show List.map f (p ++ sep :: joinChar sep (q :: qs)) = _
      rw [List.map_append, List.map_cons, ih]
      rfl

theorem no_dash_of_wordChars (w : Str)
    (hall : ∀ ch ∈ w, isWordChar ch = true) : '-' ∉ w := by
  intro hm
  have := hall '-' hm
  exact absurd this (by decide)

theorem defaultTitle_words (ws : List Str)
    (hws : ∀ w ∈ ws, w ≠ [] ∧ ∀ ch ∈ w, isWordChar ch = true) :
    defaultTitle (joinChar '-' ws) = joinChar ' ' (ws.map capWord) := by
  unfold defaultTitle
  rw [map_joinChar]
  have hw1 : ∀ w ∈ ws, List.map (fun c => if c = '-' then ' ' else c) w = w := by
    intro w hw
    refine (List.map_congr_left fun ch hch => ?_).trans (List.map_id w)
    have hnd : ch ≠ '-' := by
      intro he
      exact no_dash_of_wordChars w (hws w hw).2 (he ▸ hch)
    simp [hnd]
  have h1 : ws.map (List.map (fun c => if c = '-' then ' ' else c)) = ws :=
    (List.map_congr_left fun w hw => hw1 w hw).trans (List.map_id ws)
  rw [h1]
  have h2 : (if ('-' : Char) = '-' then ' ' else '-') = ' ' := by decide
  rw [h2]
  exact titleCase_words ws hws

theorem initialsOf_words (ws : List Str) (hwsne : ws ≠ [])
    (hws : ∀ w ∈ ws, w ≠ [] ∧ ∀ ch ∈ w, isWordChar ch = true) :
    initialsOf (joinChar '-' ws) =
      (ws.map (fun w => (capWord w).take 1)).flatten := by
  unfold initialsOf
  rw [splitChar_joinChar '-' ws hwsne
    (fun w hw => no_dash_of_wordChars w (hws w hw).2)]
  congr 1
  refine List.map_congr_left fun w hw => ?_
  obtain ⟨hne, _⟩ := hws w hw
  cases hx : w with
  | nil => exact absurd hx hne
  | cons c r => rfl

theorem firstField_of_shape (y rest1 rest2 : Str)
    (hy : ∀ ch ∈ y, isSpaceChar ch = false)
    (hr1 : ∀ ch ∈ rest1, isSpaceChar ch = false) :
    (splitChar ' ' ((y ++ '-' :: rest1) ++ ' ' :: rest2)).headI =
      y ++ '-' :: rest1 := by
  have hnosp : ' ' ∉ y ++ '-' :: rest1 := by
    intro hm
    rcases List.mem_append.1 hm with h1 | h2
    · exact absurd (hy ' ' h1) (by decide)
    · rcases List.mem_cons.1 h2 with h3 | h4
      · exact absurd h3 (by decide)
      · exact absurd (hr1 ' ' h4) (by decide)
  rw [splitChar_append_sep ' ' _ _ hnosp]
  rfl

theorem yearField_of_shape (y rest1 : Str) (hy : '-' ∉ y) :
    (splitChar '-' (y ++ '-' :: rest1)).headI = y := by
  rw [splitChar_append_sep '-' _ _ hy]
  rfl

/-- C8 (amended): with no README frontmatter and no remote origin URL, the
resolved title is the repository directory name with every *dash* replaced
by a space and the first letter of each resulting word uppercased
(underscores are word characters and are kept as-is, and do not start a new
word), and the resolved docNumber concatenates the uppercased first letters
of the *dash-separated* segments of the repository name, followed by '-'
and the leading '-'-field (the year) of the first space-field of the
earliest commit's `%ai` date. -/
theorem c8_default_metadata (env : SyncEnv) (ws : List Str)
    (y rest1 rest2 d1 : Str) (steps : List StepRec)
    (hreadme : env.readme = none) (hurl : env.remoteUrl = none)
    (hdir : env.dirName = joinChar '-' ws)
    (hwsne : ws ≠ [])
    (hws : ∀ w ∈ ws, w ≠ [] ∧ ∀ ch ∈ w, isWordChar ch = true)
    (hd1 : env.dateCmd1 = some d1)
    (htrim : trimStr d1 = d1)
    (hshape : d1 = (y ++ '-' :: rest1) ++ ' ' :: rest2)
    (hy : ∀ ch ∈ y, isSpaceChar ch = false ∧ ch ≠ '-')
    (hr1 : ∀ ch ∈ rest1, isSpaceChar ch = false) :
    (syncManifest env steps).title = joinChar ' ' (ws.map capWord) ∧
    (syncManifest env steps).docNumber =
      (ws.map (fun w => (capWord w).take 1)).flatten ++ '-' :: y := by
  have hcfg : syncConfig env = {} := by
    unfold syncConfig
    rw [hreadme]
  have hname : resolvedRepoName env = joinChar '-' ws := by
    unfold resolvedRepoName
    rw [hurl, hdir]
  have hstart : (resolvedDates env).1 = y ++ '-' :: rest1 := by
    unfold resolvedDates
    rw [hd1]
    cases env.dateCmd2 <;>
      · show (splitChar ' ' (trimStr d1)).headI = _
        rw [htrim, hshape]
        exact firstField_of_shape y rest1 rest2
          (fun ch hch => (hy ch hch).1) hr1
  constructor
  · show jsOr (syncConfig env).title (defaultTitle (resolvedRepoName env)) = _
    rw [hcfg, hname]
    show defaultTitle (joinChar '-' ws) = _
    exact defaultTitle_words ws hws
  · show jsOr (syncConfig env).docNumber
      (initialsOf (resolvedRepoName env) ++ '-' ::
        (splitChar '-' (resolvedDates env).1).headI) = _
    rw [hcfg, hname, hstart]
    show initialsOf (joinChar '-' ws) ++ '-' ::
      (splitChar '-' (y ++ '-' :: rest1)).headI = _
    rw [initialsOf_words ws hwsne hws,
      yearField_of_shape y rest1 (fun hm => (hy '-' hm).2 rfl)]

theorem c8_default_metadata_witness :
    (syncManifest wWordsEnv []).title =
      joinChar ' ' (["weekend".data, "coding".data, "agent".data].map
        capWord) ∧
    (syncManifest wWordsEnv []).docNumber =
      (["weekend".data, "coding".data, "agent".data].map
        (fun w => (capWord w).take 1)).flatten ++ '-' :: "2024".data :=
  c8_default_metadata wWordsEnv
    ["weekend".data, "coding".data, "agent".data]
    ("2024".data) ("03-01".data) ("12:00:00 +0000".data)
    ("2024-03-01 12:00:00 +0000".data) []
    rfl rfl (by decide) (by decide) (by decide) rfl (by decide) (by decide)
    (by decide) (by decide)

/-- C8 counterexample: for the repository name `hello_world` the claim
demands title `"Hello World"` (underscore replaced by a space, both words
title-cased) and docNumber `"HW-2024"`; the code replaces only dashes, so it
produces `"Hello_world"` and `"H-2024"`. -/
theorem c8_metadata_counterexample :
    ((syncRun wUnderscoreEnv).2.map Manifest.title) =
      some ("Hello_world".data) ∧
    ("Hello_world".data : Str) ≠ "Hello World".data ∧
    ((syncRun wUnderscoreEnv).2.map Manifest.docNumber) =
      some ("H-2024".data) ∧
    ("H-2024".data : Str) ≠ "HW-2024".data := by decide

end WeekendWarrior

